import Mathlib

/-!
Verification of the reference-resolution layer of the gitoxide repository:
the handle/cache access abstraction and reference peeling engine
(git-repository/src/lib.rs) and the sorted loose-reference iteration
(git-ref/src/store/file/loose/iter.rs), shallowly embedded in Lean.

Collaborator components that are not part of the excerpted sources
(the loose-reference peel routine, the sorted directory walk, the name
validator) are modelled from the specification and marked as such in
their doc comments.
-/

deriving instance DecidableEq for Except



/-- Object ids: fixed-size content hashes, modelled as natural numbers. -/
abbrev ObjectId := Nat

/-- Full reference names such as refs/heads/main (validated slash-separated paths). -/
abbrev RefName := String

/-- Model of the open error `refs::packed::buffer::open::Error`, kept opaque. -/
structure OpenError where
  code : Nat
deriving DecidableEq, Repr

/-- Model of `refs::mutable::Target`: a direct (peeled) object id or a symbolic
indirection to another reference name. -/
inductive RefTarget where
  | peeled (id : ObjectId)
  | symbolic (name : RefName)
deriving DecidableEq, Repr

/-- Model of one row of the packed-refs table: reference name, target id and the
optional precomputed fully peeled id. -/
structure PackedEntry where
  name : RefName
  target : ObjectId
  peeled : Option ObjectId
deriving DecidableEq, Repr

/-- Model of `refs::packed::Buffer`: the read-only packed-references table. -/
abbrev PackedBuffer := List PackedEntry

/-- Model of `refs::file::Store` as consumed by the peeling engine: the result of
`packed()` (opening the consolidated packed-refs file: an error, no file, or a
buffer) and the decodable loose reference files on disk (name to target), used
when resolving symbolic indirections. -/
structure FileStore where
  packedOpen : Except OpenError (Option PackedBuffer)
  loose : List (RefName × RefTarget)
deriving DecidableEq, Repr

/-- Model of `Cache` (git-repository lib.rs lines 164-169): the lazily populated
packed-refs buffer, the pack cache (`cache::Never`, carrying no state) and the
reusable scratch byte buffer. `Default::default()` is the literal `{}`. -/
structure Cache where
  packed_refs : Option PackedBuffer := none
  pack : Unit := ()
  buf : List UInt8 := []
deriving DecidableEq, Repr

/-- Model of `Cache::packed_refs` (lib.rs lines 219-231): if the buffer slot is
populated return it unchanged; otherwise ask the store to open the packed file,
propagating an open error (without touching the slot, which the caller keeps
empty) and otherwise storing and returning the open result. -/
def Cache.packedRefs (c : Cache) (file : FileStore) :
    Except OpenError (Option PackedBuffer × Cache) :=
  match c.packed_refs with
  | some packed => .ok (some packed, c)
  | none =>
    match file.packedOpen with
    | .error e => .error e
    | .ok pr => .ok (pr, { c with packed_refs := pr })

/-- Flavors of access handle: `Shared` (Rc-backed) and `SharedArc` (Arc-backed). -/
inductive HandleKind where
  | shared
  | sharedArc
deriving DecidableEq, Repr

/-- Model of a handle (`Shared` / `SharedArc`, lib.rs lines 102-114): a
reference-counted pointer to one shared `Repository` — represented by the
identity `repoId` of the pointee — plus one exclusive `RefCell<Cache>` stored
inline in the handle value itself, not behind the shared pointer. -/
structure Handle where
  kind : HandleKind
  repoId : Nat
  cache : Cache
deriving DecidableEq, Repr

/-- Model of `impl Clone for Shared` / `SharedArc` (lib.rs lines 116-132): the
clone shares the repository pointer (`Rc::clone` / `Arc::clone`) and constructs
`RefCell::new(Default::default())` as its own cache. -/
def Handle.clone (h : Handle) : Handle :=
  { kind := h.kind, repoId := h.repoId, cache := {} }

/-- A world of live handle values indexed by identity; distinct indices are
separately owned handles (each owns its cache cell inline). -/
abbrev HandleWorld := Nat → Handle

/-- Cloning the handle at index `src` into the fresh slot `dst`. -/
def cloneHandleAt (w : HandleWorld) (src dst : Nat) : HandleWorld :=
  fun j => if j = dst then (w src).clone else w j

/-- Populating the cache of the handle at index `i` (for example by loading its
packed buffer through `cache_mut()`); only that handle's cache cell is written. -/
def populateCacheAt (w : HandleWorld) (i : Nat) (c : Cache) : HandleWorld :=
  fun j => if j = i then { w j with cache := c } else w j

/-- Strict lexicographic comparison of lists by a strict element comparison. -/
def lexLtB {α : Type} (lt : α → α → Bool) : List α → List α → Bool
  | [], [] => false
  | [], _ :: _ => true
  | _ :: _, [] => false
  | a :: as, b :: bs =>
    if lt a b then true
    else if lt b a then false
    else lexLtB lt as bs

/-- Reflexive lexicographic comparison of lists by a strict element comparison. -/
def lexLeB {α : Type} (lt : α → α → Bool) : List α → List α → Bool
  | [], _ => true
  | _ :: _, [] => false
  | a :: as, b :: bs =>
    if lt a b then true
    else if lt b a then false
    else lexLeB lt as bs

/-- Code-point comparison of characters. -/
def charLtB (a b : Char) : Bool := a.val.toNat < b.val.toNat

/-- Strict lexicographic (code-point) comparison of strings. -/
def strLtB (a b : String) : Bool := lexLtB charLtB a.data b.data

/-- Kinds of objects in the object database. -/
inductive ObjKind where
  | commit
  | tree
  | blob
  | tag
deriving DecidableEq, Repr

/-- Model of an object-database record: the object's kind and, for tag objects,
the id the tag points to (the decoded content relevant to peeling). -/
structure OdbEntry where
  kind : ObjKind
  tagTarget : Option ObjectId
deriving DecidableEq, Repr

/-- Model of the linked object database as a finite id-to-record table. -/
abbrev Odb := List (ObjectId × OdbEntry)

/-- Lookup by id in the object database (`repo.odb.find(oid, ...)`). -/
def odbFind (odb : Odb) (id : ObjectId) : Option OdbEntry :=
  (odb.find? (fun p => p.1 == id)).map (fun p => p.2)

/-- Model of `Repository` (lib.rs lines 91-95): the reference store and the
object database; the working tree plays no part in peeling. -/
structure Repository where
  refs : FileStore
  odb : Odb
deriving DecidableEq, Repr

/-- Model of `refs::file::loose::Reference` — its definition is not among the
excerpted sources. Modelled from the spec: it holds the decoded name and live
target, is mutated in place during peeling, and `peeledMemo` realizes the
spec's memoization ("Once a Reference's peeled id is computed, subsequent peel
calls on the same Reference return the memoized value without further
lookups"). -/
structure LooseReference where
  name : RefName
  target : RefTarget
  peeledMemo : Option ObjectId
deriving DecidableEq, Repr

/-- Model of `reference::Backing` (lib.rs lines 281-292): an immutable packed
snapshot (name, target, optional precomputed fully peeled id) or a mutable
decoded loose file reference. -/
inductive Backing where
  | ownedPacked (name : RefName) (target : ObjectId) (object : Option ObjectId)
  | looseFile (r : LooseReference)
deriving DecidableEq, Repr

/-- Abrupt termination: a dynamic borrow violation of the handle's
`RefCell<Cache>`, or a failed `expect` on the reference's backing slot
("a ref must be set" in `peel_to_object_in_place`, "always set" in
`name()` / `target()`). -/
inductive Panic where
  | borrowMutWhileBorrowed
  | expectBackingSet
  | expectAlwaysSet
deriving DecidableEq, Repr

/-- Dynamic borrow state of the handle's `RefCell<Cache>` cell: the number of
outstanding shared borrows and whether an exclusive borrow is outstanding. -/
structure BorrowFlags where
  shared : Nat
  exclusive : Bool
deriving DecidableEq, Repr

/-- Execution state threaded through a peel: the cache contents, the cell's
borrow flags, and how often the object-lookup callback has run. -/
structure ExecState where
  cache : Cache
  flags : BorrowFlags
  callbackCalls : Nat
deriving DecidableEq, Repr

/-- Model of the object-lookup closure passed to the loose peel (lib.rs lines
358-360): `repo.odb.find(oid, buf, &mut self.access.cache_mut().pack)`.
The `cache_mut()` call is `RefCell::borrow_mut`, which panics whenever any
borrow of the same cell is outstanding; otherwise the borrow is taken and
dropped within the statement and the lookup result is returned. -/
def findCallback (repo : Repository) (oid : ObjectId) (s : ExecState) :
    Except Panic (Option OdbEntry × ExecState) :=
  if s.flags.shared != 0 || s.flags.exclusive then
    .error .borrowMutWhileBorrowed
  else
    .ok (odbFind repo.odb oid, { s with callbackCalls := s.callbackCalls + 1 })

/-- Error cases of the loose peel, modelling
`refs::file::loose::reference::peel::to_id::Error` from the spec (section 7):
unresolvable indirection, a missing object during lookup, or an exhausted
indirection budget. -/
inductive LoosePeelError where
  | refNotFound (name : RefName)
  | objNotFound (id : ObjectId)
  | depthExceeded
deriving DecidableEq, Repr

/-- Lookup of a loose reference file on disk by name. -/
def looseFind (store : FileStore) (n : RefName) : Option RefTarget :=
  (store.loose.find? (fun p => p.1 == n)).map (fun p => p.2)

/-- Lookup of a packed entry by name in an optional packed buffer. -/
def packedFind (packed : Option PackedBuffer) (n : RefName) : Option PackedEntry :=
  match packed with
  | none => none
  | some buf => buf.find? (fun e => e.name == n)

/-- Modelled from the spec (section 4.5): resolution of symbolic indirections
during a loose peel, consulting the store's loose files and the supplied
packed buffer, with fuel bounding the indirection chain. This is part of the
loose peel collaborator that is not among the excerpted sources. -/
def resolveTarget (store : FileStore) (packed : Option PackedBuffer) :
    Nat → RefTarget → Except LoosePeelError ObjectId
  | _, .peeled id => .ok id
  | 0, .symbolic _ => .error .depthExceeded
  | fuel + 1, .symbolic n =>
    match looseFind store n with
    | some t => resolveTarget store packed fuel t
    | none =>
      match packedFind packed n with
      | some e => .ok e.target
      | none => .error (.refNotFound n)

/-- Modelled from the spec (glossary: peeling resolves through any indirection
to the final, non-indirect object id): peel a direct id through tag objects to
the final non-tag id, invoking the object-lookup callback once per examined
object. This is part of the loose peel collaborator that is not among the
excerpted sources. -/
def tagPeelLoop (repo : Repository) :
    Nat → ObjectId → ExecState → Except Panic (Except LoosePeelError ObjectId × ExecState)
  | 0, _, s => .ok (.error .depthExceeded, s)
  | fuel + 1, id, s =>
    match findCallback repo id s with
    | .error p => .error p
    | .ok (none, s') => .ok (.error (.objNotFound id), s')
    | .ok (some e, s') =>
      match e.kind, e.tagTarget with
      | .tag, some t => tagPeelLoop repo fuel t s'
      | .tag, none => .ok (.error (.objNotFound id), s')
      | _, _ => .ok (.ok id, s')

/-- Model of `refs::file::loose::Reference::peel_to_id_in_place` — not among the
excerpted sources. Modelled from the spec (section 4.5, loose variant): a
memoized peeled id is returned at once without further lookups; otherwise the
symbolic indirection is resolved through the store and packed buffer, the
resulting id is peeled through tags via the object-lookup callback, and on
success the final id is memoized in place. -/
def loosePeelToIdInPlace (repo : Repository) (fuel : Nat) (r : LooseReference)
    (packed : Option PackedBuffer) (s : ExecState) :
    Except Panic (Except LoosePeelError (ObjectId × LooseReference) × ExecState) :=
  match r.peeledMemo with
  | some i => .ok (.ok (i, r), s)
  | none =>
    match resolveTarget repo.refs packed fuel r.target with
    | .error e => .ok (.error e, s)
    | .ok id =>
      match tagPeelLoop repo fuel id s with
      | .error p => .error p
      | .ok (.error e, s') => .ok (.error e, s')
      | .ok (.ok fin, s') =>
        .ok (.ok (fin, { r with target := .peeled fin, peeledMemo := some fin }), s')

/-- Error type of `reference::peel_to_id_in_place::Error` (lib.rs lines
299-313): both backing kinds surface one error enum. -/
inductive PeelError where
  | loosePeelToId (e : LoosePeelError)
  | packedRefsOpen (e : OpenError)
deriving DecidableEq, Repr

/-- Observable outcome of one `peel_to_object_in_place` call that did not
panic: the returned value (the id of the returned `Object`, or the error), the
reference's backing slot afterwards, the handle's cache afterwards, and the
number of object-lookup callback invocations made by this call. -/
structure PeelOutcome where
  result : Except PeelError ObjectId
  backing : Option Backing
  cache : Cache
  callbackCalls : Nat
deriving DecidableEq, Repr

/-- Model of `Reference::peel_to_object_in_place` (lib.rs lines 351-383).
The backing is taken up front (`take().expect("a ref must be set")`, panicking
when absent). Packed variant: adopt the precomputed peeled id if present,
clear the slot, restore the backing and return the id — the cache and the
object database are never touched. Loose variant: refresh the cache's packed
buffer via a transient exclusive borrow (`cache_mut().packed_refs(...)?`, an
error of which propagates with the backing left unset), then run the loose
peel while the statement-long shared borrow from `self.access.cache()` is
outstanding (so the borrow flags show one shared borrow for the whole loose
peel, and every callback invocation attempts an overlapping exclusive borrow);
a loose peel error also propagates with the backing left unset, and on success
the updated loose reference is written back. The call is entered with no
outstanding borrows, so the transient exclusive borrow on the refresh
statement itself succeeds. -/
def peelToObjectInPlace (repo : Repository) (fuel : Nat)
    (backing : Option Backing) (cache : Cache) : Except Panic PeelOutcome :=
  match backing with
  | none => .error .expectBackingSet
  | some (.looseFile r) =>
    match cache.packedRefs repo.refs with
    | .error e =>
      .ok { result := .error (.packedRefsOpen e), backing := none,
            cache := cache, callbackCalls := 0 }
    | .ok (_, cache1) =>
      match loosePeelToIdInPlace repo fuel r cache1.packed_refs
          { cache := cache1, flags := { shared := 1, exclusive := false },
            callbackCalls := 0 } with
      | .error p => .error p
      | .ok (.error e, s') =>
        .ok { result := .error (.loosePeelToId e), backing := none,
              cache := s'.cache, callbackCalls := s'.callbackCalls }
      | .ok (.ok (oid, r'), s') =>
        .ok { result := .ok oid, backing := some (.looseFile r'),
              cache := s'.cache, callbackCalls := s'.callbackCalls }
  | some (.ownedPacked name target object) =>
    .ok { result := .ok (object.getD target),
          backing := some (.ownedPacked name (object.getD target) none),
          cache := cache, callbackCalls := 0 }

/-- Model of `Reference::name` (lib.rs lines 343-349): panics via
`expect("always set")` when the backing slot is absent. -/
def referenceName (backing : Option Backing) : Except Panic RefName :=
  match backing with
  | none => .error .expectAlwaysSet
  | some (.ownedPacked n _ _) => .ok n
  | some (.looseFile r) => .ok r.name

/-- Model of `Reference::target` (lib.rs lines 336-341): panics via
`expect("always set")` when the backing slot is absent. -/
def referenceTarget (backing : Option Backing) : Except Panic RefTarget :=
  match backing with
  | none => .error .expectAlwaysSet
  | some (.ownedPacked _ t _) => .ok (.peeled t)
  | some (.looseFile r) => .ok r.target

/-- Model of `Object` (lib.rs lines 234-238): a resolved object id together
with the access handle that produced it. -/
structure Object (A : Type) where
  id : ObjectId
  access : A

/-- Model of `impl PartialEq<Object<A>> for Object<B>` (lib.rs lines 246-250):
equality compares the object ids only, across objects produced by different
access handle types. -/
def objectEq {A B : Type} (o1 : Object A) (o2 : Object B) : Bool :=
  o1.id == o2.id

/-- Strict lexicographic comparison of component paths. -/
def pathLtB (a b : List String) : Bool := lexLtB strLtB a b

/-- Reflexive lexicographic comparison of component paths. -/
def pathLeB (a b : List String) : Bool := lexLeB strLtB a b

/-- Model of a directory entry met by the walk: its path (as components from
the filesystem origin) and whether it is a regular file (directories and
symbolic links have `isFile = false`). -/
structure FsEntry where
  path : List String
  isFile : Bool
deriving DecidableEq, Repr

/-- Errors of the iteration surface: the refs directory is absent, a
caller-supplied path is invalid, or a traversal-level failure. -/
inductive IoError where
  | notFound
  | invalidInput
  | traversal (code : Nat)
deriving DecidableEq, Repr

/-- Modes of `SortedLoosePaths` (iter.rs lines 17-20): yield paths only, or
paths together with materialized names. -/
inductive LoosePathsMode where
  | paths
  | pathsAndNames
deriving DecidableEq, Repr

/-- Ordering of walk entries by path, used by the sorted traversal. -/
def entLe (a b : FsEntry) : Prop := pathLeB a.path b.path = true

instance : DecidableRel entLe := fun a b => by unfold entLe; infer_instance

/-- Strict ordering of walk entries by path. -/
def entLt (a b : FsEntry) : Prop := pathLtB a.path b.path = true

/-- Model of `git_features::fs::walkdir_sorted_new` — not among the excerpted
sources. Modelled from the spec (section 4.2): a traversal of all entries
beneath `root`, yielded in strictly sorted order by path regardless of the
order in which the underlying filesystem enumerates them (`fs` lists the
entries in enumeration order). -/
def walkdirSorted (fs : List FsEntry) (root : List String) : List FsEntry :=
  (fs.filter (fun e => root.isPrefixOf e.path)).insertionSort entLe

/-- Relative-path computation `full_path.strip_prefix(base)` for paths that
have `base` as a component prefix. -/
def stripBase (base p : List String) : List String := p.drop base.length

/-- Model of the `SortedLoosePaths` iteration loop (iter.rs lines 40-73) over a
stream of walk items: traversal errors are yielded as errors; entries that are
not regular files are skipped; entries whose base-relative path fails the name
validator are skipped; valid regular files are yielded with their path, paired
with the materialized name exactly in the names mode. The validator
(`git_validate::reference::name_partial`) is a collaborator and enters as the
parameter `valid`. -/
def loosePathsNext (valid : List String → Bool) (base : List String)
    (mode : LoosePathsMode) :
    List (Except IoError FsEntry) → List (Except IoError (List String × Option (List String)))
  | [] => []
  | .error e :: rest => .error e :: loosePathsNext valid base mode rest
  | .ok entry :: rest =>
    if entry.isFile then
      if valid (stripBase base entry.path) then
        .ok (entry.path,
          match mode with
          | .paths => none
          | .pathsAndNames => some (stripBase base entry.path)) ::
            loosePathsNext valid base mode rest
      else
        loosePathsNext valid base mode rest
    else
      loosePathsNext valid base mode rest

/-- The single-entry yield decision of the iteration loop, as an option. -/
def pickLoose (valid : List String → Bool) (base : List String)
    (mode : LoosePathsMode) (e : FsEntry) : Option (List String × Option (List String)) :=
  if e.isFile && valid (stripBase base e.path) then
    some (e.path,
      match mode with
      | .paths => none
      | .pathsAndNames => some (stripBase base e.path))
  else none

/-- Composite model of `SortedLoosePaths` (iter.rs lines 11-74): the sorted walk
beneath `root` fed through the iteration loop, with names relative to `base`. -/
def sortedLoosePaths (valid : List String → Bool) (mode : LoosePathsMode)
    (fs : List FsEntry) (root base : List String) :
    List (Except IoError (List String × Option (List String))) :=
  loosePathsNext valid base mode ((walkdirSorted fs root).map .ok)

/-- Relative names of the successfully yielded items of an iteration. -/
def yieldedNames (base : List String)
    (out : List (Except IoError (List String × Option (List String)))) :
    List (List String) :=
  out.filterMap (fun x =>
    match x with
    | .ok (p, _) => some (stripBase base p)
    | .error _ => none)

/-- Model of `Store::refs_dir` (iter.rs lines 155-157). -/
def refsDir (base : List String) : List String := base ++ ["refs"]

/-- Model of `Store::loose_iter` (iter.rs lines 139-145), observed through the
reference names it yields: `NotFound` when the refs directory does not exist,
otherwise the names (paths relative to `base`) of the references yielded by a
reader rooted at base/refs. -/
def looseIter (valid : List String → Bool) (fs : List FsEntry)
    (base : List String) : Except IoError (List (List String)) :=
  if fs.any (fun e => !e.isFile && e.path == refsDir base) then
    .ok (yieldedNames base (sortedLoosePaths valid .paths fs (refsDir base) base))
  else
    .error .notFound

/-- Model of a caller-supplied filesystem path: an absoluteness flag and raw
components, which may include the single-dot and double-dot components. -/
structure PathModel where
  absolute : Bool
  comps : List String
deriving DecidableEq, Repr

/-- Model of `Store::validate_prefix` (iter.rs lines 158-175): absolute paths
and paths containing a current-directory or parent-directory component are
rejected with `InvalidInput` before any input-output happens. -/
def validatePfx (p : PathModel) : Except IoError (List String) :=
  if p.absolute then .error .invalidInput
  else if p.comps.any (fun c => c == "." || c == "..") then .error .invalidInput
  else .ok p.comps

/-- Model of `Store::loose_iter_prefixed` (iter.rs lines 150-153), observed
through the reference names it yields: validate the prefix, then read from
base joined with the prefix, names still relative to `base`. -/
def looseIterPrefixed (valid : List String → Bool) (fs : List FsEntry)
    (base : List String) (p : PathModel) : Except IoError (List (List String)) :=
  match validatePfx p with
  | .error e => .error e
  | .ok comps =>
    .ok (yieldedNames base (sortedLoosePaths valid .paths fs (base ++ comps) base))

theorem lexLeB_total {α : Type} (lt : α → α → Bool) (a b : List α) :
    lexLeB lt a b = true ∨ lexLeB lt b a = true := by
  induction a generalizing b with
  | nil => exact .inl rfl
  | cons x xs ih =>
    cases b with
    | nil => exact .inr rfl
    | cons y ys =>
      by_cases hxy : lt x y = true
      · exact .inl (by simp [lexLeB, hxy])
      · by_cases hyx : lt y x = true
        · exact .inr (by simp [lexLeB, hyx])
        · rcases ih ys with h | h
          · exact .inl (by simp [lexLeB, hxy, hyx, h])
          · exact .inr (by simp [lexLeB, hxy, hyx, h])

theorem lexLeB_trans {α : Type} (lt : α → α → Bool)
    (htrans : ∀ a b c, lt a b = true → lt b c = true → lt a c = true)
    (heq : ∀ a b, lt a b = false → lt b a = false → a = b)
    (a b c : List α) (h1 : lexLeB lt a b = true) (h2 : lexLeB lt b c = true) :
    lexLeB lt a c = true := by
  induction a generalizing b c with
  | nil => rfl
  | cons x xs ih =>
    cases b with
    | nil => simp [lexLeB] at h1
    | cons y ys =>
      cases c with
      | nil => simp [lexLeB] at h2
      | cons z zs =>
        by_cases hxy : lt x y = true
        · by_cases hyz : lt y z = true
          · simp [lexLeB, htrans x y z hxy hyz]
          · by_cases hzy : lt z y = true
            · simp [lexLeB, hyz, hzy] at h2
            · have hyzeq : y = z := heq y z (by simpa using hyz) (by simpa using hzy)
              subst hyzeq
              simp [lexLeB, hxy]
        · by_cases hyx : lt y x = true
          · simp [lexLeB, hxy, hyx] at h1
          · have hxyeq : x = y := heq x y (by simpa using hxy) (by simpa using hyx)
            subst hxyeq
            have h1' : lexLeB lt xs ys = true := by simpa [lexLeB, hxy] using h1
            by_cases hxz : lt x z = true
            · simp [lexLeB, hxz]
            · by_cases hzx : lt z x = true
              · simp [lexLeB, hxz, hzx] at h2
              · have h2' : lexLeB lt ys zs = true := by simpa [lexLeB, hxz, hzx] using h2
                simpa [lexLeB, hxz, hzx] using ih ys zs h1' h2'

theorem lexLeB_antisymm {α : Type} (lt : α → α → Bool)
    (hasym : ∀ a b, lt a b = true → lt b a = false)
    (heq : ∀ a b, lt a b = false → lt b a = false → a = b)
    (a b : List α) (h1 : lexLeB lt a b = true) (h2 : lexLeB lt b a = true) : a = b := by
  induction a generalizing b with
  | nil =>
    cases b with
    | nil => rfl
    | cons y ys => simp [lexLeB] at h2
  | cons x xs ih =>
    cases b with
    | nil => simp [lexLeB] at h1
    | cons y ys =>
      by_cases hxy : lt x y = true
      · simp [lexLeB, hxy, hasym x y hxy] at h2
      · by_cases hyx : lt y x = true
        · simp [lexLeB, hxy, hyx] at h1
        · have hxyeq : x = y := heq x y (by simpa using hxy) (by simpa using hyx)
          subst hxyeq
          have := ih ys (by simpa [lexLeB, hxy] using h1) (by simpa [lexLeB, hxy] using h2)
          rw [this]

theorem lexLtB_of_le_of_ne {α : Type} (lt : α → α → Bool)
    (heq : ∀ a b, lt a b = false → lt b a = false → a = b)
    (a b : List α) (h1 : lexLeB lt a b = true) (h2 : a ≠ b) :
    lexLtB lt a b = true := by
  induction a generalizing b with
  | nil =>
    cases b with
    | nil => exact absurd rfl h2
    | cons y ys => rfl
  | cons x xs ih =>
    cases b with
    | nil => simp [lexLeB] at h1
    | cons y ys =>
      by_cases hxy : lt x y = true
      · simp [lexLtB, hxy]
      · by_cases hyx : lt y x = true
        · simp [lexLeB, hxy, hyx] at h1
        · have hxyeq : x = y := heq x y (by simpa using hxy) (by simpa using hyx)
          subst hxyeq
          have hne : xs ≠ ys := by
            intro hc
            exact h2 (by rw [hc])
          simpa [lexLtB, hxy] using ih ys (by simpa [lexLeB, hxy] using h1) hne

theorem lexLtB_asymm {α : Type} (lt : α → α → Bool)
    (hasym : ∀ a b, lt a b = true → lt b a = false)
    (a b : List α) (h1 : lexLtB lt a b = true) (h2 : lexLtB lt b a = true) : False := by
  induction a generalizing b with
  | nil =>
    cases b with
    | nil => simp [lexLtB] at h1
    | cons y ys => simp [lexLtB] at h2
  | cons x xs ih =>
    cases b with
    | nil => simp [lexLtB] at h1
    | cons y ys =>
      by_cases hxy : lt x y = true
      · simp [lexLtB, hxy, hasym x y hxy] at h2
      · by_cases hyx : lt y x = true
        · simp [lexLtB, hxy, hyx] at h1
        · exact ih ys (by simpa [lexLtB, hxy, hyx] using h1)
            (by simpa [lexLtB, hxy, hyx] using h2)

theorem lexLtB_eq_of_not_lt {α : Type} (lt : α → α → Bool)
    (heq : ∀ a b, lt a b = false → lt b a = false → a = b)
    (a b : List α) (h1 : lexLtB lt a b = false) (h2 : lexLtB lt b a = false) : a = b := by
  induction a generalizing b with
  | nil =>
    cases b with
    | nil => rfl
    | cons y ys => simp [lexLtB] at h1
  | cons x xs ih =>
    cases b with
    | nil => simp [lexLtB] at h2
    | cons y ys =>
      by_cases hxy : lt x y = true
      · simp [lexLtB, hxy] at h1
      · by_cases hyx : lt y x = true
        · simp [lexLtB, hxy, hyx] at h2
        · have hxyeq : x = y := heq x y (by simpa using hxy) (by simpa using hyx)
          subst hxyeq
          have := ih ys (by simpa [lexLtB, hxy] using h1) (by simpa [lexLtB, hxy] using h2)
          rw [this]

theorem lexLtB_trans {α : Type} (lt : α → α → Bool)
    (htrans : ∀ a b c, lt a b = true → lt b c = true → lt a c = true)
    (heq : ∀ a b, lt a b = false → lt b a = false → a = b)
    (a b c : List α) (h1 : lexLtB lt a b = true) (h2 : lexLtB lt b c = true) :
    lexLtB lt a c = true := by
  induction a generalizing b c with
  | nil =>
    cases b with
    | nil => simp [lexLtB] at h1
    | cons y ys =>
      cases c with
      | nil => simp [lexLtB] at h2
      | cons z zs => rfl
  | cons x xs ih =>
    cases b with
    | nil => simp [lexLtB] at h1
    | cons y ys =>
      cases c with
      | nil => simp [lexLtB] at h2
      | cons z zs =>
        by_cases hxy : lt x y = true
        · by_cases hyz : lt y z = true
          · simp [lexLtB, htrans x y z hxy hyz]
          · by_cases hzy : lt z y = true
            · simp [lexLtB, hyz, hzy] at h2
            · have hyzeq : y = z := heq y z (by simpa using hyz) (by simpa using hzy)
              subst hyzeq
              simp [lexLtB, hxy]
        · by_cases hyx : lt y x = true
          · simp [lexLtB, hxy, hyx] at h1
          · have hxyeq : x = y := heq x y (by simpa using hxy) (by simpa using hyx)
            subst hxyeq
            have h1' : lexLtB lt xs ys = true := by simpa [lexLtB, hxy] using h1
            by_cases hxz : lt x z = true
            · simp [lexLtB, hxz]
            · by_cases hzx : lt z x = true
              · simp [lexLtB, hxz, hzx] at h2
              · have h2' : lexLtB lt ys zs = true := by simpa [lexLtB, hxz, hzx] using h2
                simpa [lexLtB, hxz, hzx] using ih ys zs h1' h2'

theorem lexLtB_append {α : Type} (lt : α → α → Bool)
    (hirr : ∀ a, lt a a = false)
    (pre a b : List α) : lexLtB lt (pre ++ a) (pre ++ b) = lexLtB lt a b := by
  induction pre with
  | nil => rfl
  | cons p ps ih => simp [lexLtB, hirr p, ih]

theorem charLtB_irrefl (a : Char) : charLtB a a = false := by simp [charLtB]

theorem charLtB_asymm (a b : Char) (h : charLtB a b = true) : charLtB b a = false := by
  simp [charLtB] at h ⊢
  omega

theorem charLtB_trans (a b c : Char) (h1 : charLtB a b = true) (h2 : charLtB b c = true) :
    charLtB a c = true := by
  simp [charLtB] at h1 h2 ⊢
  omega

theorem charLtB_eq (a b : Char) (h1 : charLtB a b = false) (h2 : charLtB b a = false) :
    a = b := by
  simp [charLtB] at h1 h2
  exact Char.ext (UInt32.ext (by omega))

theorem strLtB_irrefl (a : String) : strLtB a a = false := by
  cases h : strLtB a a with
  | false => rfl
  | true => exact absurd (lexLtB_asymm charLtB charLtB_asymm a.data a.data h h) not_false

theorem strLtB_asymm (a b : String) (h : strLtB a b = true) : strLtB b a = false := by
  cases hc : strLtB b a with
  | false => rfl
  | true => exact absurd (lexLtB_asymm charLtB charLtB_asymm a.data b.data h hc) not_false

theorem strLtB_trans (a b c : String) (h1 : strLtB a b = true) (h2 : strLtB b c = true) :
    strLtB a c = true :=
  lexLtB_trans charLtB charLtB_trans charLtB_eq a.data b.data c.data h1 h2

theorem strLtB_eq (a b : String) (h1 : strLtB a b = false) (h2 : strLtB b a = false) :
    a = b := by
  have hd : a.data = b.data := lexLtB_eq_of_not_lt charLtB charLtB_eq a.data b.data h1 h2
  cases a with
  | mk da =>
    cases b with
    | mk db => exact congrArg String.mk (by simpa using hd)

/-- Helper: once the object-lookup callback runs while a shared borrow of the
cache cell is outstanding, the tag-peeling loop either gives up on fuel or
panics with the overlapping-borrow violation; it can never complete. -/
theorem tagPeelLoop_under_shared_borrow (repo : Repository) (fuel : Nat)
    (id : ObjectId) (s : ExecState) (h : s.flags.shared ≠ 0) :
    tagPeelLoop repo fuel id s = .ok (.error .depthExceeded, s) ∨
    tagPeelLoop repo fuel id s = .error .borrowMutWhileBorrowed := by
  cases fuel with
  | zero => exact .inl rfl
  | succ n =>
    right
    have hs : (s.flags.shared != 0) = true := by simpa using h
    simp [tagPeelLoop, findCallback, hs]

/-- Helper: a successful `Cache.packedRefs` call is stable — the returned cache
has the returned buffer in its slot, and calling `packedRefs` again on it
returns the same buffer and cache. -/
theorem packedRefs_stable (c : Cache) (file : FileStore) (po : Option PackedBuffer)
    (c1 : Cache) (h : c.packedRefs file = .ok (po, c1)) :
    c1.packed_refs = po ∧ c1.packedRefs file = .ok (po, c1) := by
  obtain ⟨slot, pk, bf⟩ := c
  cases slot with
  | some b =>
    simp [Cache.packedRefs] at h
    obtain ⟨h1, h2⟩ := h
    subst h1; subst h2
    simp [Cache.packedRefs]
  | none =>
    cases ho : file.packedOpen with
    | error e => simp [Cache.packedRefs, ho] at h
    | ok pr =>
      simp [Cache.packedRefs, ho] at h
      obtain ⟨h1, h2⟩ := h
      subst h1; subst h2
      cases pr with
      | some b => simp [Cache.packedRefs]
      | none => simp [Cache.packedRefs, ho]

/-- C2: a loose-backed reference whose peel reaches the object-lookup stage
(no memoized id, and the symbolic indirection resolves to a direct id that
must be checked against the object database) aborts the program: the loose
peel runs under the statement-long shared borrow of the handle's cache cell,
and the callback's `cache_mut()` is an overlapping exclusive borrow of the
same `RefCell`, so the first callback invocation panics. -/
theorem c2_loose_peel_with_lookup_aborts (repo : Repository) (r : LooseReference)
    (cache c1 : Cache) (po : Option PackedBuffer) (i : ObjectId) (n : Nat)
    (hmemo : r.peeledMemo = none)
    (hpacked : cache.packedRefs repo.refs = .ok (po, c1))
    (hres : resolveTarget repo.refs c1.packed_refs (n + 1) r.target = .ok i) :
    peelToObjectInPlace repo (n + 1) (some (.looseFile r)) cache =
      .error .borrowMutWhileBorrowed := by
  simp [peelToObjectInPlace, hpacked, loosePeelToIdInPlace, hmemo, hres,
    tagPeelLoop, findCallback]

/-- Witness for C2: a loose reference holding a direct object id, on a store
with no packed-refs file and an empty object database. -/
theorem c2_witness :
    ((⟨"refs/heads/main", .peeled 1, none⟩ : LooseReference).peeledMemo = none ∧
      ({ } : Cache).packedRefs
          (⟨⟨.ok none, []⟩, []⟩ : Repository).refs = .ok (none, { }) ∧
      resolveTarget (⟨⟨.ok none, []⟩, []⟩ : Repository).refs ({ } : Cache).packed_refs
          (0 + 1) (RefTarget.peeled 1) = .ok 1) ∧
    peelToObjectInPlace ⟨⟨.ok none, []⟩, []⟩ (0 + 1)
        (some (.looseFile ⟨"refs/heads/main", .peeled 1, none⟩)) { } =
      .error .borrowMutWhileBorrowed :=
  ⟨⟨rfl, by decide, rfl⟩,
    c2_loose_peel_with_lookup_aborts ⟨⟨.ok none, []⟩, []⟩
      ⟨"refs/heads/main", .peeled 1, none⟩ { } { } none 1 0 rfl (by decide) rfl⟩

/-- C3: peeling a packed-backed reference adopts the precomputed peeled id as
the new target when present (falling back to the current target when absent),
clears the precomputed slot, returns that id, performs zero object-lookup
callback invocations, leaves the cache untouched, and never panics or errors. -/
theorem c3_packed_peel_adopts_precomputed_id (repo : Repository) (fuel : Nat)
    (cache : Cache) (name : RefName) (target : ObjectId) (object : Option ObjectId) :
    peelToObjectInPlace repo fuel (some (.ownedPacked name target object)) cache =
      .ok { result := .ok (object.getD target),
            backing := some (.ownedPacked name (object.getD target) none),
            cache := cache, callbackCalls := 0 } := rfl

/-- C1 (code-bug evidence): on a store whose packed-refs open fails, peeling a
loose-backed reference returns the open error but leaves the backing slot
taken (`None`), so the pre-peel state is lost: `name()` and `target()`, which
returned values before the failed peel, now panic on their `expect`, and a
retried peel panics on `expect("a ref must be set")` instead of behaving as
before. -/
theorem c1_failed_peel_loses_backing :
    peelToObjectInPlace ⟨⟨.error ⟨7⟩, []⟩, []⟩ 5
        (some (.looseFile ⟨"refs/heads/main", .symbolic "refs/heads/other", none⟩)) { } =
      .ok { result := .error (.packedRefsOpen ⟨7⟩), backing := none,
            cache := { }, callbackCalls := 0 } ∧
    referenceName (some (.looseFile ⟨"refs/heads/main", .symbolic "refs/heads/other", none⟩)) =
      .ok "refs/heads/main" ∧
    referenceTarget (some (.looseFile ⟨"refs/heads/main", .symbolic "refs/heads/other", none⟩)) =
      .ok (.symbolic "refs/heads/other") ∧
    referenceName none = .error .expectAlwaysSet ∧
    referenceTarget none = .error .expectAlwaysSet ∧
    peelToObjectInPlace ⟨⟨.error ⟨7⟩, []⟩, []⟩ 5 none { } = .error .expectBackingSet :=
  ⟨rfl, rfl, rfl, rfl, rfl, rfl⟩

/-- C4: peeling is idempotent and memoized — whenever a first
`peel_to_object_in_place` call completes successfully with id `i`, a second
call on the resulting reference state returns the identical id with zero
object-lookup callback invocations. -/
theorem c4_peel_idempotent_and_memoized (repo : Repository) (fuel : Nat)
    (backing : Option Backing) (cache : Cache) (out : PeelOutcome) (i : ObjectId)
    (h1 : peelToObjectInPlace repo fuel backing cache = .ok out)
    (hres : out.result = .ok i) :
    ∃ out2 : PeelOutcome,
      peelToObjectInPlace repo fuel out.backing out.cache = .ok out2 ∧
      out2.result = .ok i ∧ out2.callbackCalls = 0 := by
  cases backing with
  | none => simp [peelToObjectInPlace] at h1
  | some b =>
    cases b with
    | ownedPacked n t o =>
      simp [peelToObjectInPlace] at h1
      subst h1
      simp at hres
      refine ⟨⟨.ok i, some (.ownedPacked n i none), cache, 0⟩, ?_, rfl, rfl⟩
      simp [peelToObjectInPlace, hres]
    | looseFile r =>
      rcases hck : cache.packedRefs repo.refs with e | ⟨po, c1⟩
      · simp [peelToObjectInPlace, hck] at h1
        subst h1
        simp at hres
      · have hst := packedRefs_stable cache repo.refs po c1 hck
        rcases hmemo : r.peeledMemo with _ | j
        · rcases hrt : resolveTarget repo.refs c1.packed_refs fuel r.target with e | id
          · simp [peelToObjectInPlace, hck, loosePeelToIdInPlace, hmemo, hrt] at h1
            subst h1
            simp at hres
          · rcases tagPeelLoop_under_shared_borrow repo fuel id
                ⟨c1, ⟨1, false⟩, 0⟩ (by simp) with hloop | hloop
            · simp [peelToObjectInPlace, hck, loosePeelToIdInPlace, hmemo, hrt, hloop] at h1
              subst h1
              simp at hres
            · simp [peelToObjectInPlace, hck, loosePeelToIdInPlace, hmemo, hrt, hloop] at h1
        · simp [peelToObjectInPlace, hck, loosePeelToIdInPlace, hmemo] at h1
          subst h1
          simp at hres
          refine ⟨⟨.ok j, some (.looseFile r), c1, 0⟩, ?_, by simp [hres], rfl⟩
          simp [peelToObjectInPlace, hst.2, loosePeelToIdInPlace, hmemo]

/-- Witness for C4: a packed-backed reference with a precomputed peeled id. -/
theorem c4_witness :
    (peelToObjectInPlace ⟨⟨.ok none, []⟩, []⟩ 3
        (some (.ownedPacked "refs/tags/v1" 5 (some 9))) { } =
      .ok ⟨.ok 9, some (.ownedPacked "refs/tags/v1" 9 none), { }, 0⟩ ∧
      (⟨.ok 9, some (.ownedPacked "refs/tags/v1" 9 none), { }, 0⟩ : PeelOutcome).result =
        .ok 9) ∧
    (∃ out2 : PeelOutcome,
      peelToObjectInPlace ⟨⟨.ok none, []⟩, []⟩ 3
          (⟨.ok 9, some (.ownedPacked "refs/tags/v1" 9 none), { }, 0⟩ : PeelOutcome).backing
          (⟨.ok 9, some (.ownedPacked "refs/tags/v1" 9 none), { }, 0⟩ : PeelOutcome).cache =
        .ok out2 ∧
      out2.result = .ok 9 ∧ out2.callbackCalls = 0) :=
  ⟨⟨by decide, rfl⟩,
    c4_peel_idempotent_and_memoized ⟨⟨.ok none, []⟩, []⟩ 3
      (some (.ownedPacked "refs/tags/v1" 5 (some 9))) { }
      ⟨.ok 9, some (.ownedPacked "refs/tags/v1" 9 none), { }, 0⟩ 9 (by decide) rfl⟩

/-- C10: resolved object handles compare equal exactly when their resolved
object ids are equal — for any two references of any backing kind, peeled
through any (possibly different) access handles and repositories, the
`PartialEq` on the returned objects holds iff the two resolved ids coincide. -/
theorem c10_object_equality_is_resolved_id_equality {A B : Type} (a : A) (b : B)
    (repo1 repo2 : Repository) (fuel1 fuel2 : Nat) (b1 b2 : Option Backing)
    (cc1 cc2 : Cache) (o1 o2 : PeelOutcome) (i1 i2 : ObjectId)
    (h1 : peelToObjectInPlace repo1 fuel1 b1 cc1 = .ok o1) (hr1 : o1.result = .ok i1)
    (h2 : peelToObjectInPlace repo2 fuel2 b2 cc2 = .ok o2) (hr2 : o2.result = .ok i2) :
    objectEq (Object.mk i1 a) (Object.mk i2 b) = true ↔ i1 = i2 := by
  simp [objectEq]

/-- Witness for C10: a packed-backed and a loose-backed (memoized) reference
resolving to the same id through handles of different types. -/
theorem c10_witness :
    (peelToObjectInPlace ⟨⟨.ok none, []⟩, []⟩ 3
        (some (.ownedPacked "refs/tags/v1" 5 (some 9))) { } =
      .ok ⟨.ok 9, some (.ownedPacked "refs/tags/v1" 9 none), { }, 0⟩ ∧
      (⟨.ok 9, some (.ownedPacked "refs/tags/v1" 9 none), { }, 0⟩ : PeelOutcome).result =
        .ok 9 ∧
      peelToObjectInPlace ⟨⟨.ok none, []⟩, []⟩ 3
          (some (.looseFile ⟨"refs/heads/main", .peeled 9, some 9⟩)) { } =
        .ok ⟨.ok 9, some (.looseFile ⟨"refs/heads/main", .peeled 9, some 9⟩), { }, 0⟩ ∧
      (⟨.ok 9, some (.looseFile ⟨"refs/heads/main", .peeled 9, some 9⟩), { }, 0⟩ :
          PeelOutcome).result = .ok 9) ∧
    (objectEq (Object.mk 9 (0 : Nat)) (Object.mk 9 true) = true ↔ (9 : ObjectId) = 9) :=
  ⟨⟨by decide, rfl, by decide, rfl⟩,
    c10_object_equality_is_resolved_id_equality (0 : Nat) true
      ⟨⟨.ok none, []⟩, []⟩ ⟨⟨.ok none, []⟩, []⟩ 3 3
      (some (.ownedPacked "refs/tags/v1" 5 (some 9)))
      (some (.looseFile ⟨"refs/heads/main", .peeled 9, some 9⟩)) { } { }
      ⟨.ok 9, some (.ownedPacked "refs/tags/v1" 9 none), { }, 0⟩
      ⟨.ok 9, some (.looseFile ⟨"refs/heads/main", .peeled 9, some 9⟩), { }, 0⟩ 9 9
      (by decide) rfl (by decide) rfl⟩

/-- C5: `Cache.packedRefs` returns the already-loaded buffer with no open attempt
when the slot is populated (the result is the same for every store, hence
independent of the open capability); when the slot is empty a failing open
propagates the error and the same unchanged cache may retry (and succeed)
later; a successful open stores and returns the buffer. -/
theorem c5_packed_refs_lazy_and_retryable (c : Cache) (file file' : FileStore)
    (b : PackedBuffer) (e : OpenError) :
    (c.packed_refs = some b → ∀ f : FileStore, c.packedRefs f = .ok (some b, c)) ∧
    (c.packed_refs = none → file.packedOpen = .error e →
      c.packedRefs file = .error e ∧
      (file'.packedOpen = .ok (some b) →
        c.packedRefs file' = .ok (some b, { c with packed_refs := some b }))) ∧
    (c.packed_refs = none → file.packedOpen = .ok (some b) →
      c.packedRefs file = .ok (some b, { c with packed_refs := some b })) := by
  refine ⟨fun h f => ?_, fun h he => ⟨?_, fun h' => ?_⟩, fun h ho => ?_⟩ <;>
    simp [Cache.packedRefs, *]

/-- Witness for C5 at a concrete cache and stores. -/
theorem c5_witness :
    (({ } : Cache).packed_refs = none ∧
      (⟨.error ⟨7⟩, []⟩ : FileStore).packedOpen = .error ⟨7⟩) ∧
    (({ } : Cache).packedRefs ⟨.error ⟨7⟩, []⟩ = .error ⟨7⟩ ∧
      ((⟨.ok (some [⟨"refs/tags/v1", 3, some 9⟩]), []⟩ : FileStore).packedOpen =
          .ok (some [⟨"refs/tags/v1", 3, some 9⟩]) →
        ({ } : Cache).packedRefs ⟨.ok (some [⟨"refs/tags/v1", 3, some 9⟩]), []⟩ =
          .ok (some [⟨"refs/tags/v1", 3, some 9⟩],
            { ({ } : Cache) with packed_refs := some [⟨"refs/tags/v1", 3, some 9⟩] }))) :=
  ⟨⟨rfl, rfl⟩,
    (c5_packed_refs_lazy_and_retryable { } ⟨.error ⟨7⟩, []⟩
        ⟨.ok (some [⟨"refs/tags/v1", 3, some 9⟩]), []⟩
        [⟨"refs/tags/v1", 3, some 9⟩] ⟨7⟩).2.1 rfl rfl⟩

/-- C6: cloning a handle (either flavor) preserves the shared repository identity
and the handle flavor but yields a brand-new empty cache (no packed buffer,
empty scratch buffer); in a world of separately owned handles, populating the
clone's cache leaves the original handle untouched, and populating the
original's cache leaves the clone's cache empty. -/
theorem c6_clone_shares_repo_with_fresh_cache (h : Handle) (w : HandleWorld)
    (s d : Nat) (c c' : Cache) (hne : d ≠ s) :
    h.clone.repoId = h.repoId ∧ h.clone.kind = h.kind ∧
    h.clone.cache.packed_refs = none ∧ h.clone.cache.buf = [] ∧
    populateCacheAt (cloneHandleAt w s d) d c s = w s ∧
    (populateCacheAt (cloneHandleAt w s d) s c') d = (w s).clone := by
  refine ⟨rfl, rfl, rfl, rfl, ?_, ?_⟩ <;>
    simp [populateCacheAt, cloneHandleAt, hne, Ne.symm hne]

/-- Witness for C6 at a concrete handle world. -/
theorem c6_witness :
    ((1 : Nat) ≠ 0) ∧
    ((Handle.mk .shared 42 ⟨some [⟨"refs/tags/v1", 3, some 9⟩], (), [1]⟩).clone.repoId = 42 ∧
      (Handle.mk .shared 42 ⟨some [⟨"refs/tags/v1", 3, some 9⟩], (), [1]⟩).clone.kind = .shared ∧
      (Handle.mk .shared 42 ⟨some [⟨"refs/tags/v1", 3, some 9⟩], (), [1]⟩).clone.cache.packed_refs = none ∧
      (Handle.mk .shared 42 ⟨some [⟨"refs/tags/v1", 3, some 9⟩], (), [1]⟩).clone.cache.buf = [] ∧
      populateCacheAt
        (cloneHandleAt (fun _ => Handle.mk .shared 42 ⟨some [⟨"refs/tags/v1", 3, some 9⟩], (), [1]⟩) 0 1)
        1 ⟨some [], (), []⟩ 0 =
        Handle.mk .shared 42 ⟨some [⟨"refs/tags/v1", 3, some 9⟩], (), [1]⟩ ∧
      (populateCacheAt
        (cloneHandleAt (fun _ => Handle.mk .shared 42 ⟨some [⟨"refs/tags/v1", 3, some 9⟩], (), [1]⟩) 0 1)
        0 ⟨some [], (), []⟩) 1 =
        (Handle.mk .shared 42 ⟨some [⟨"refs/tags/v1", 3, some 9⟩], (), [1]⟩).clone) :=
  ⟨by decide,
    c6_clone_shares_repo_with_fresh_cache
      (Handle.mk .shared 42 ⟨some [⟨"refs/tags/v1", 3, some 9⟩], (), [1]⟩)
      (fun _ => Handle.mk .shared 42 ⟨some [⟨"refs/tags/v1", 3, some 9⟩], (), [1]⟩)
      0 1 ⟨some [], (), []⟩ ⟨some [], (), []⟩ (by decide)⟩

theorem pathLeB_total (a b : List String) : pathLeB a b = true ∨ pathLeB b a = true :=
  lexLeB_total strLtB a b

theorem pathLeB_trans (a b c : List String) (h1 : pathLeB a b = true)
    (h2 : pathLeB b c = true) : pathLeB a c = true :=
  lexLeB_trans strLtB strLtB_trans strLtB_eq a b c h1 h2

theorem pathLtB_of_le_of_ne (a b : List String) (h1 : pathLeB a b = true) (h2 : a ≠ b) :
    pathLtB a b = true :=
  lexLtB_of_le_of_ne strLtB strLtB_eq a b h1 h2

theorem pathLtB_asymm (a b : List String) (h1 : pathLtB a b = true)
    (h2 : pathLtB b a = true) : False :=
  lexLtB_asymm strLtB strLtB_asymm a b h1 h2

theorem pathLtB_append (pre a b : List String) :
    pathLtB (pre ++ a) (pre ++ b) = pathLtB a b :=
  lexLtB_append strLtB strLtB_irrefl pre a b

theorem pathLtB_stripBase (base p q : List String) (hp : base <+: p) (hq : base <+: q) :
    pathLtB (stripBase base p) (stripBase base q) = pathLtB p q := by
  obtain ⟨p', rfl⟩ := hp
  obtain ⟨q', rfl⟩ := hq
  simp only [stripBase, List.drop_left]
  exact (pathLtB_append base p' q').symm

theorem walkdirSorted_sorted (fs : List FsEntry) (root : List String) :
    List.Sorted entLe (walkdirSorted fs root) := by
  haveI : IsTotal FsEntry entLe := ⟨fun a b => pathLeB_total a.path b.path⟩
  haveI : IsTrans FsEntry entLe := ⟨fun a b c => pathLeB_trans a.path b.path c.path⟩
  exact List.sorted_insertionSort entLe _

theorem walkdirSorted_perm (fs : List FsEntry) (root : List String) :
    (walkdirSorted fs root).Perm (fs.filter (fun e => root.isPrefixOf e.path)) :=
  List.perm_insertionSort entLe _

theorem mem_walkdirSorted (fs : List FsEntry) (root : List String) (e : FsEntry) :
    e ∈ walkdirSorted fs root ↔ e ∈ fs ∧ root.isPrefixOf e.path = true := by
  rw [(walkdirSorted_perm fs root).mem_iff, List.mem_filter]

theorem walkdirSorted_pairwise_lt (fs : List FsEntry) (root : List String)
    (hnd : (fs.map FsEntry.path).Nodup) :
    List.Pairwise entLt (walkdirSorted fs root) := by
  have h1 : ((fs.filter (fun e => root.isPrefixOf e.path)).map FsEntry.path).Nodup :=
    List.Nodup.sublist (List.Sublist.map _ (List.filter_sublist fs)) hnd
  have h2 : ((walkdirSorted fs root).map FsEntry.path).Nodup :=
    (List.Perm.nodup_iff (List.Perm.map _ (walkdirSorted_perm fs root))).mpr h1
  have hne : List.Pairwise (fun a b : FsEntry => a.path ≠ b.path) (walkdirSorted fs root) :=
    List.pairwise_map.mp h2
  have hle : List.Pairwise entLe (walkdirSorted fs root) := walkdirSorted_sorted fs root
  exact (hle.and hne).imp (fun h => pathLtB_of_le_of_ne _ _ h.1 h.2)

theorem walkdirSorted_perm_invariant (fs1 fs2 : List FsEntry) (root : List String)
    (hperm : fs1.Perm fs2) (hnd : (fs1.map FsEntry.path).Nodup) :
    walkdirSorted fs1 root = walkdirSorted fs2 root := by
  haveI : IsAntisymm FsEntry entLt :=
    ⟨fun a b h1 h2 => (pathLtB_asymm a.path b.path h1 h2).elim⟩
  have hp : (walkdirSorted fs1 root).Perm (walkdirSorted fs2 root) :=
    ((walkdirSorted_perm fs1 root).trans (hperm.filter _)).trans
      (walkdirSorted_perm fs2 root).symm
  have hnd2 : (fs2.map FsEntry.path).Nodup := ((hperm.map _).nodup_iff).mp hnd
  exact List.eq_of_perm_of_sorted hp (walkdirSorted_pairwise_lt fs1 root hnd)
    (walkdirSorted_pairwise_lt fs2 root hnd2)

theorem loosePathsNext_map_ok (valid : List String → Bool) (base : List String)
    (mode : LoosePathsMode) (l : List FsEntry) :
    loosePathsNext valid base mode (l.map .ok) =
      (l.filterMap (pickLoose valid base mode)).map .ok := by
  induction l with
  | nil => rfl
  | cons e rest ih =>
    by_cases hf : e.isFile = true
    · by_cases hv : valid (stripBase base e.path) = true
      · simp [loosePathsNext, pickLoose, hf, hv, ih]
      · simp [loosePathsNext, pickLoose, hf, hv, ih]
    · simp [loosePathsNext, pickLoose, hf, ih]

theorem pickLoose_path (valid : List String → Bool) (base : List String)
    (mode : LoosePathsMode) (e : FsEntry) (b : List String × Option (List String))
    (h : pickLoose valid base mode e = some b) : b.1 = e.path := by
  unfold pickLoose at h
  split at h
  · cases h
    rfl
  · cases h

/-- C7: loose iteration yields entries in strictly sorted lexicographic order
of relative path, independent of the underlying filesystem enumeration order —
two runs over the same set of files (a permutation with no duplicate paths)
yield identical item sequences, and the yielded relative names are pairwise
strictly increasing. -/
theorem c7_loose_iteration_sorted_and_deterministic
    (valid : List String → Bool) (mode : LoosePathsMode) (fs1 fs2 : List FsEntry)
    (root base : List String) (hperm : fs1.Perm fs2)
    (hnd : (fs1.map FsEntry.path).Nodup) (hb : base <+: root) :
    sortedLoosePaths valid mode fs1 root base = sortedLoosePaths valid mode fs2 root base ∧
    List.Pairwise (fun p q => pathLtB p q = true)
      (yieldedNames base (sortedLoosePaths valid mode fs1 root base)) := by
  constructor
  · unfold sortedLoosePaths
    rw [walkdirSorted_perm_invariant fs1 fs2 root hperm hnd]
  · unfold sortedLoosePaths yieldedNames
    rw [loosePathsNext_map_ok, List.filterMap_map]
    have hcomp : (fun x => (match x with
        | .ok (p, _) => some (stripBase base p)
        | .error _ => none : Option (List String))) ∘
          (.ok : List String × Option (List String) → Except IoError _) =
        some ∘ (fun b => stripBase base b.1) := by
      funext x
      cases x with
      | mk p n => rfl
    rw [hcomp, List.filterMap_eq_map]
    have hw : List.Pairwise
        (fun a b : FsEntry => pathLtB (stripBase base a.path) (stripBase base b.path) = true)
        (walkdirSorted fs1 root) := by
      refine (walkdirSorted_pairwise_lt fs1 root hnd).imp_of_mem ?_
      intro a b ha hbm hr
      have hpa : base <+: a.path :=
        hb.trans (List.isPrefixOf_iff_prefix.mp ((mem_walkdirSorted fs1 root a).mp ha).2)
      have hpb : base <+: b.path :=
        hb.trans (List.isPrefixOf_iff_prefix.mp ((mem_walkdirSorted fs1 root b).mp hbm).2)
      rw [pathLtB_stripBase base a.path b.path hpa hpb]
      exact hr
    refine List.pairwise_map.mpr ?_
    refine List.Pairwise.filterMap (pickLoose valid base mode) ?_ hw
    intro a a' hr b hbmem b' hbmem'
    rw [pickLoose_path valid base mode a b (Option.mem_def.mp hbmem),
      pickLoose_path valid base mode a' b' (Option.mem_def.mp hbmem')]
    exact hr

theorem loosePathsNext_ok_mem (valid : List String → Bool) (base : List String)
    (mode : LoosePathsMode) (s : List (Except IoError FsEntry))
    (p : List String) (n : Option (List String))
    (hmem : .ok (p, n) ∈ loosePathsNext valid base mode s) :
    ∃ ent : FsEntry, .ok ent ∈ s ∧ ent.isFile = true ∧
      valid (stripBase base ent.path) = true ∧ p = ent.path := by
  induction s with
  | nil => simp [loosePathsNext] at hmem
  | cons x rest ih =>
    cases x with
    | error e =>
      simp only [loosePathsNext, List.mem_cons] at hmem
      rcases hmem with h | h
      · cases h
      · obtain ⟨ent, hent, hf, hv, hp⟩ := ih h
        exact ⟨ent, List.mem_cons_of_mem _ hent, hf, hv, hp⟩
    | ok entry =>
      by_cases hf : entry.isFile = true
      · by_cases hv : valid (stripBase base entry.path) = true
        · simp only [loosePathsNext, hf, hv, if_true, List.mem_cons] at hmem
          rcases hmem with h | h
          · obtain ⟨h1, h2⟩ := Prod.mk.injEq .. ▸ (Except.ok.inj h)
            exact ⟨entry, List.mem_cons_self .., hf, hv, h1⟩
          · obtain ⟨ent, hent, hf', hv', hp⟩ := ih h
            exact ⟨ent, List.mem_cons_of_mem _ hent, hf', hv', hp⟩
        · simp only [loosePathsNext, hf, hv, if_true, if_false] at hmem
          obtain ⟨ent, hent, hf', hv', hp⟩ := ih hmem
          exact ⟨ent, List.mem_cons_of_mem _ hent, hf', hv', hp⟩
      · simp only [loosePathsNext, hf, if_false] at hmem
        obtain ⟨ent, hent, hf', hv', hp⟩ := ih hmem
        exact ⟨ent, List.mem_cons_of_mem _ hent, hf', hv', hp⟩

/-- C8: an entry that is not a regular file, or whose base-relative path fails
the name validator, contributes nothing to the iteration: deleting it from the
walk stream leaves the yielded sequence unchanged (it is neither yielded nor
surfaced as an error), and every successfully yielded item originates from a
regular file whose relative path passed the validator. -/
theorem c8_invalid_or_nonfile_entries_yield_nothing
    (valid : List String → Bool) (base : List String) (mode : LoosePathsMode)
    (s1 s2 : List (Except IoError FsEntry)) (e : FsEntry)
    (h : ¬(e.isFile = true ∧ valid (stripBase base e.path) = true)) :
    loosePathsNext valid base mode (s1 ++ .ok e :: s2) =
      loosePathsNext valid base mode s1 ++ loosePathsNext valid base mode s2 ∧
    ∀ p n, .ok (p, n) ∈ loosePathsNext valid base mode s1 →
      ∃ ent : FsEntry, .ok ent ∈ s1 ∧ ent.isFile = true ∧
        valid (stripBase base ent.path) = true ∧ p = ent.path := by
  refine ⟨?_, fun p n hmem => loosePathsNext_ok_mem valid base mode s1 p n hmem⟩
  induction s1 with
  | nil =>
    by_cases hf : e.isFile = true
    · have hv : valid (stripBase base e.path) = false := by
        cases hval : valid (stripBase base e.path) with
        | false => rfl
        | true => exact absurd ⟨hf, hval⟩ h
      simp [loosePathsNext, hf, hv]
    · simp [loosePathsNext, hf]
  | cons x rest ih =>
    cases x with
    | error e' => simp [loosePathsNext, ih]
    | ok entry =>
      by_cases hf : entry.isFile = true
      · by_cases hv : valid (stripBase base entry.path) = true
        · simp [loosePathsNext, hf, hv, ih]
        · simp [loosePathsNext, hf, hv, ih]
      · simp [loosePathsNext, hf, ih]

/-- Witness for C8: a stream with one valid file and one traversal error, with
an entry whose relative path contains a parent-directory component deleted. -/
theorem c8_witness :
    (¬((⟨["refs", ".."], true⟩ : FsEntry).isFile = true ∧
        (fun n : List String => n.all (fun c => c != ".."))
          (stripBase [] (⟨["refs", ".."], true⟩ : FsEntry).path) = true)) ∧
    loosePathsNext (fun n => n.all (fun c => c != "..")) [] .paths
        ([.ok ⟨["refs", "heads", "main"], true⟩] ++
          .ok ⟨["refs", ".."], true⟩ :: [.error (.traversal 3)]) =
      loosePathsNext (fun n => n.all (fun c => c != "..")) [] .paths
          [.ok ⟨["refs", "heads", "main"], true⟩] ++
        loosePathsNext (fun n => n.all (fun c => c != "..")) [] .paths
          [.error (.traversal 3)] ∧
    (∃ ent : FsEntry, .ok ent ∈
        ([.ok ⟨["refs", "heads", "main"], true⟩] : List (Except IoError FsEntry)) ∧
      ent.isFile = true ∧
      (fun n : List String => n.all (fun c => c != ".."))
        (stripBase [] ent.path) = true ∧
      ["refs", "heads", "main"] = ent.path) :=
  ⟨by decide,
    (c8_invalid_or_nonfile_entries_yield_nothing
      (fun n => n.all (fun c => c != "..")) [] .paths
      [.ok ⟨["refs", "heads", "main"], true⟩] [.error (.traversal 3)]
      ⟨["refs", ".."], true⟩ (by decide)).1,
    (c8_invalid_or_nonfile_entries_yield_nothing
      (fun n => n.all (fun c => c != "..")) [] .paths
      [.ok ⟨["refs", "heads", "main"], true⟩] [.error (.traversal 3)]
      ⟨["refs", ".."], true⟩ (by decide)).2
      ["refs", "heads", "main"] none (by decide)⟩

theorem yieldedNames_map_ok (base : List String)
    (lst : List (List String × Option (List String))) :
    yieldedNames base (lst.map .ok) = lst.map (fun b => stripBase base b.1) := by
  unfold yieldedNames
  rw [List.filterMap_map]
  have hcomp : (fun x => (match x with
      | .ok (p, _) => some (stripBase base p)
      | .error _ => none : Option (List String))) ∘
        (.ok : List String × Option (List String) → Except IoError _) =
      some ∘ (fun b => stripBase base b.1) := by
    funext x
    cases x with
    | mk p n => rfl
  rw [hcomp, List.filterMap_eq_map]

theorem pickLoose_eq_some (valid : List String → Bool) (base : List String)
    (mode : LoosePathsMode) (e : FsEntry) (b : List String × Option (List String)) :
    pickLoose valid base mode e = some b ↔
      e.isFile = true ∧ valid (stripBase base e.path) = true ∧
        b = (e.path,
          match mode with
          | .paths => none
          | .pathsAndNames => some (stripBase base e.path)) := by
  cases hf : e.isFile <;> cases hv : valid (stripBase base e.path) <;>
    simp [pickLoose, hf, hv, eq_comm]

theorem mem_yieldedNames (valid : List String → Bool) (mode : LoosePathsMode)
    (fs : List FsEntry) (root base : List String) (nm : List String) :
    nm ∈ yieldedNames base (sortedLoosePaths valid mode fs root base) ↔
      ∃ e : FsEntry, e ∈ fs ∧ root.isPrefixOf e.path = true ∧ e.isFile = true ∧
        valid (stripBase base e.path) = true ∧ nm = stripBase base e.path := by
  unfold sortedLoosePaths
  rw [loosePathsNext_map_ok, yieldedNames_map_ok]
  simp only [List.mem_map, List.mem_filterMap, mem_walkdirSorted, pickLoose_eq_some]
  constructor
  · rintro ⟨b, ⟨e, ⟨hefs, hpref⟩, hf, hv, hb⟩, hstrip⟩
    subst hb
    exact ⟨e, hefs, hpref, hf, hv, hstrip.symm⟩
  · rintro ⟨e, hefs, hpref, hf, hv, hnm⟩
    exact ⟨(e.path,
        match mode with
        | .paths => none
        | .pathsAndNames => some (stripBase base e.path)),
      ⟨e, ⟨hefs, hpref⟩, hf, hv, rfl⟩, hnm.symm⟩

theorem append_prefix_split (base q p : List String) :
    (base ++ q) <+: p ↔ (base <+: p ∧ q <+: p.drop base.length) := by
  constructor
  · rintro ⟨r, rfl⟩
    refine ⟨⟨q ++ r, by rw [List.append_assoc]⟩, ?_⟩
    rw [List.append_assoc, List.drop_left]
    exact List.prefix_append q r
  · rintro ⟨⟨t, rfl⟩, hq⟩
    rw [List.drop_left] at hq
    obtain ⟨r, rfl⟩ := hq
    exact ⟨r, by rw [List.append_assoc]⟩

/-- C9 counterexample: with valid files refs/heads/main and foo/x, the prefix
foo is relative and has no dot components, yet prefix-filtered iteration
yields the name foo/x while full iteration (rooted at refs) yields only
refs/heads/main, whose prefix-filtered subset is empty — so the claimed set
equality fails for a valid prefix that does not point into the refs tree. -/
theorem c9_counterexample :
    validatePfx ⟨false, ["foo"]⟩ = .ok ["foo"] ∧
    looseIterPrefixed (fun _ => true)
        [⟨["refs"], false⟩, ⟨["refs", "heads", "main"], true⟩,
          ⟨["foo"], false⟩, ⟨["foo", "x"], true⟩] [] ⟨false, ["foo"]⟩ =
      .ok [["foo", "x"]] ∧
    looseIter (fun _ => true)
        [⟨["refs"], false⟩, ⟨["refs", "heads", "main"], true⟩,
          ⟨["foo"], false⟩, ⟨["foo", "x"], true⟩] [] =
      .ok [["refs", "heads", "main"]] ∧
    [["foo", "x"]] ≠
      ([["refs", "heads", "main"]].filter (fun nm => ["foo"].isPrefixOf nm)) := by
  refine ⟨by decide, by decide, by decide, by decide⟩

/-- C9 (amended): for every valid relative prefix P whose first component is
refs (the prefixes that address the refs tree full iteration walks), a name is
yielded by prefix-filtered iteration exactly when it is yielded by full
iteration and has P as a component-wise prefix. -/
theorem c9_prefixed_iteration_is_filtered_full_iteration
    (valid : List String → Bool) (fs : List FsEntry) (base ps : List String)
    (pn an : List (List String))
    (hp : looseIterPrefixed valid fs base ⟨false, "refs" :: ps⟩ = .ok pn)
    (hf : looseIter valid fs base = .ok an) (nm : List String) :
    nm ∈ pn ↔ (nm ∈ an ∧ ("refs" :: ps) <+: nm) := by
  have hassoc : (base ++ ["refs"]) ++ ps = base ++ ("refs" :: ps) := by simp
  -- extract the name lists from the two success hypotheses
  rcases hval : validatePfx ⟨false, "refs" :: ps⟩ with e | comps
  · rw [looseIterPrefixed, hval] at hp
    cases hp
  · have hcomps : comps = "refs" :: ps := by
      unfold validatePfx at hval
      simp only [if_neg (by simp : ¬(false = true))] at hval
      split at hval
      · cases hval
      · exact (Except.ok.inj hval).symm
    subst hcomps
    rw [looseIterPrefixed, hval] at hp
    have hpn : pn = yieldedNames base
        (sortedLoosePaths valid .paths fs (base ++ ("refs" :: ps)) base) :=
      (Except.ok.inj hp).symm
    have han : an = yieldedNames base
        (sortedLoosePaths valid .paths fs (refsDir base) base) := by
      unfold looseIter at hf
      split at hf
      · exact (Except.ok.inj hf).symm
      · cases hf
    subst hpn
    subst han
    rw [mem_yieldedNames, mem_yieldedNames]
    constructor
    · rintro ⟨e, hefs, hpref, hfile, hvalid, hnm⟩
      have h2 : (base ++ ("refs" :: ps)) <+: e.path :=
        List.isPrefixOf_iff_prefix.mp hpref
      obtain ⟨hbase, hps⟩ := (append_prefix_split base ("refs" :: ps) e.path).mp h2
      have h1 : (base ++ ["refs"]) <+: e.path := by
        rw [← hassoc] at h2
        exact (List.prefix_append (base ++ ["refs"]) ps).trans h2
      refine ⟨⟨e, hefs, List.isPrefixOf_iff_prefix.mpr h1, hfile, hvalid, hnm⟩, ?_⟩
      rw [hnm]
      exact hps
    · rintro ⟨⟨e, hefs, hpref, hfile, hvalid, hnm⟩, hpfx⟩
      have h1 : (base ++ ["refs"]) <+: e.path := List.isPrefixOf_iff_prefix.mp hpref
      have hbase : base <+: e.path :=
        (List.prefix_append base ["refs"]).trans h1
      have hps : ("refs" :: ps) <+: e.path.drop base.length := by
        rw [hnm] at hpfx
        exact hpfx
      have h2 : (base ++ ("refs" :: ps)) <+: e.path :=
        (append_prefix_split base ("refs" :: ps) e.path).mpr ⟨hbase, hps⟩
      exact ⟨e, hefs, List.isPrefixOf_iff_prefix.mpr h2, hfile, hvalid, hnm⟩

/-- Witness for the amended C9 at a concrete store: prefix refs/heads selects
exactly the refs/heads/main name out of the full iteration. -/
theorem c9_witness :
    (looseIterPrefixed (fun _ => true)
        [⟨["refs"], false⟩, ⟨["refs", "heads", "main"], true⟩,
          ⟨["refs", "tags", "v1"], true⟩] [] ⟨false, ["refs", "heads"]⟩ =
      .ok [["refs", "heads", "main"]] ∧
    looseIter (fun _ => true)
        [⟨["refs"], false⟩, ⟨["refs", "heads", "main"], true⟩,
          ⟨["refs", "tags", "v1"], true⟩] [] =
      .ok [["refs", "heads", "main"], ["refs", "tags", "v1"]]) ∧
    (["refs", "heads", "main"] ∈ [["refs", "heads", "main"]] ↔
      (["refs", "heads", "main"] ∈ [["refs", "heads", "main"], ["refs", "tags", "v1"]] ∧
        ["refs", "heads"] <+: ["refs", "heads", "main"])) :=
  ⟨⟨by decide, by decide⟩,
    c9_prefixed_iteration_is_filtered_full_iteration (fun _ => true)
      [⟨["refs"], false⟩, ⟨["refs", "heads", "main"], true⟩,
        ⟨["refs", "tags", "v1"], true⟩] [] ["heads"]
      [["refs", "heads", "main"]] [["refs", "heads", "main"], ["refs", "tags", "v1"]]
      (by decide) (by decide) ["refs", "heads", "main"]⟩

/-- Witness for C7: two enumeration orders of the same two loose files produce
the identical sorted iteration. -/
theorem c7_witness :
    (([⟨["refs", "tags"], true⟩, ⟨["refs", "heads"], true⟩] : List FsEntry).Perm
        [⟨["refs", "heads"], true⟩, ⟨["refs", "tags"], true⟩] ∧
      (([⟨["refs", "tags"], true⟩, ⟨["refs", "heads"], true⟩] : List FsEntry).map
          FsEntry.path).Nodup ∧
      ([] : List String) <+: ["refs"]) ∧
    (sortedLoosePaths (fun _ => true) .paths
        [⟨["refs", "tags"], true⟩, ⟨["refs", "heads"], true⟩] ["refs"] [] =
      sortedLoosePaths (fun _ => true) .paths
        [⟨["refs", "heads"], true⟩, ⟨["refs", "tags"], true⟩] ["refs"] [] ∧
    List.Pairwise (fun p q => pathLtB p q = true)
      (yieldedNames [] (sortedLoosePaths (fun _ => true) .paths
        [⟨["refs", "tags"], true⟩, ⟨["refs", "heads"], true⟩] ["refs"] []))) :=
  ⟨⟨by decide, by decide, by decide⟩,
    c7_loose_iteration_sorted_and_deterministic (fun _ => true) .paths
      [⟨["refs", "tags"], true⟩, ⟨["refs", "heads"], true⟩]
      [⟨["refs", "heads"], true⟩, ⟨["refs", "tags"], true⟩]
      ["refs"] [] (by decide) (by decide) (by decide)⟩
